import Mathlib

/-!
Verification development for the rshm shared-memory IPC library.

The definitions below are shallow embeddings of the Rust sources:
  * `src/condvar.rs`   — the futex-based cross-process condition variable,
  * `src/shm.rs`       — the shared-memory region manager,
  * `examples/log.rs`  — the single-writer append-only log,
  * `examples/dictionary.rs` — the keyed last-write-wins dictionary.

Machine counters written through shared memory (`u64` sequence number,
`usize` written-record count, the futex's `i32`) are modelled as `Nat`/`Int`
with explicit reduction modulo `2 ^ 64` / `2 ^ 32` at the writes where the
Rust code could wrap.  External effects (futex syscalls, mmap/ftruncate
results, counter values observed across processes) are supplied as explicit
oracle arguments, so every definition stays executable.
-/

namespace Rshm

/-! ## Condition variable (`src/condvar.rs`) -/

/-- The `libc::EINTR` error number on Linux. -/
def EINTR : Int := 4

/-- Result of `Futex::wait`, before it is mapped to `Condvar`'s error type. -/
inductive FutexWaitResult where
  | ok
  | interrupted
deriving DecidableEq, Repr

/-- Error codes of `condvar.rs` (`enum ErrorCode`). -/
inductive CondvarErrorCode where
  | WaitInterrupted
  | InvalidWakeArguments
deriving DecidableEq, Repr

/-- Shallow embedding of `Futex::wait`.

The Rust code loads `expected_value` once, then loops
`while expected_value >= self.value.load(Acquire)`, issuing a
`FUTEX_WAIT` syscall in the body and returning
`Err(WaitInterrupted)` as soon as the syscall result equals `EINTR`.

Each loop iteration is driven by one oracle pair `(v, r)`:
`v` is the value of the shared atomic observed by the load in the loop
condition, and `r` is the result of the `FUTEX_WAIT` syscall issued when
the loop body runs.  `none` means the oracle list was exhausted while the
thread was still blocked in the loop. -/
def futexWaitLoop (expected : Int) : List (Int × Int) → Option FutexWaitResult
  | [] => none
  | (v, r) :: rest =>
    if expected < v then some FutexWaitResult.ok
    else if r = EINTR then some FutexWaitResult.interrupted
    else futexWaitLoop expected rest

/-- Shallow embedding of `Condvar::wait`, which simply delegates to
`Futex::wait` and exposes its outcome as `Result<(), ErrorCode>`. -/
def condvarWaitModel (expected : Int) (steps : List (Int × Int)) :
    Option (Except CondvarErrorCode Unit) :=
  (futexWaitLoop expected steps).map fun r =>
    match r with
    | FutexWaitResult.ok => Except.ok ()
    | FutexWaitResult.interrupted => Except.error CondvarErrorCode.WaitInterrupted

/-- Signed 32-bit wrap-around, used for the futex's `AtomicI32::fetch_add`. -/
def wrap32 (x : Int) : Int := (x + 2 ^ 31) % 2 ^ 32 - 2 ^ 31

/-! ## Region manager (`src/shm.rs`)

For the ownership/cleanup claims only the *sequence of kernel/filesystem
effects* matters, so `create_mmap`, `open` and the two `Drop`
implementations are embedded as the traces of effects they perform, driven
by a small oracle describing which underlying calls succeed. -/

/-- Kernel/filesystem operations performed by `shm.rs`. -/
inductive FsOp where
  | shmOpenCall
  | ftruncateCall
  | mmapCall
  | closeCall
  | removeFileCall
  | munmapCall
  | shmUnlinkCall
deriving DecidableEq, Repr

/-- Oracle for `ShmDefinition::create_mmap`: whether `ftruncate`, `mmap`
and `close` succeed. -/
structure MmapOutcome where
  ftruncateOk : Bool
  mmapOk : Bool
  closeOk : Bool
deriving DecidableEq, Repr

/-- Trace of effects of `ShmDefinition::create_mmap`, paired with whether
it returns `Ok`.  On any failure the `or_else` branch runs: it closes the
file descriptor (again) and calls `std::fs::remove_file("/dev/shm/<path>")`
before returning the error. -/
def createMmapOps (oc : MmapOutcome) : List FsOp × Bool :=
  if !oc.ftruncateOk then
    ([FsOp.ftruncateCall, FsOp.closeCall, FsOp.removeFileCall], false)
  else if !oc.mmapOk then
    ([FsOp.ftruncateCall, FsOp.mmapCall, FsOp.closeCall, FsOp.removeFileCall], false)
  else if !oc.closeOk then
    ([FsOp.ftruncateCall, FsOp.mmapCall, FsOp.closeCall, FsOp.closeCall,
      FsOp.removeFileCall], false)
  else
    ([FsOp.ftruncateCall, FsOp.mmapCall, FsOp.closeCall], true)

/-- Trace of effects of `ShmDefinition::open` (producing a non-owning
`ShmMap`): `shm_open` without `O_CREAT`, then `create_mmap`. -/
def openOps (shmOpenOk : Bool) (oc : MmapOutcome) : List FsOp × Bool :=
  if shmOpenOk then
    (FsOp.shmOpenCall :: (createMmapOps oc).1, (createMmapOps oc).2)
  else ([FsOp.shmOpenCall], false)

/-- Trace of effects of `ShmDefinition::create` (producing an owning
`OwnedShmMap`): `shm_open` with `O_CREAT | O_EXCL`, then `create_mmap`. -/
def createOps (shmOpenOk : Bool) (oc : MmapOutcome) : List FsOp × Bool :=
  if shmOpenOk then
    (FsOp.shmOpenCall :: (createMmapOps oc).1, (createMmapOps oc).2)
  else ([FsOp.shmOpenCall], false)

/-- Trace of `impl Drop for ShmMap`: `munmap` only. -/
def shmMapDropOps : List FsOp := [FsOp.munmapCall]

/-- Trace of `impl Drop for OwnedShmMap`: `munmap` then `shm_unlink`. -/
def ownedShmMapDropOps : List FsOp := [FsOp.munmapCall, FsOp.shmUnlinkCall]

/-- Whether an effect destroys the named shared-memory resource
(removing `/dev/shm/<path>` and `shm_unlink` both do). -/
def destroysName : FsOp → Bool
  | FsOp.removeFileCall => true
  | FsOp.shmUnlinkCall => true
  | _ => false

/-! ## Append-only log (`examples/log.rs`)

The mapped region behind a log is modelled by its shared header fields
(the condvar's futex value and the `u64` sequence number) plus the record
memory, viewed — exactly as the Rust code views it through `end_ptr` —
as an array of `E`-sized slots indexed in units of `size_of::<E>()` from
the head of the region.  `size_of::<E>()` and the region size are passed
explicitly since Lean types have no layout. -/

/-- `size_of::<Condvar>()`: one `AtomicI32`, 4 bytes. -/
def condvarSize : Nat := 4

/-- `size_of::<u64>()`. -/
def u64Size : Nat := 8

/-- Byte size of the log header: a `Condvar` followed by the `u64`
sequence number. -/
def headerSize : Nat := condvarSize + u64Size

/-- The slot count `(size_of::<Condvar>() + size_of::<u64>()) / size_of_e + 1`
computed by `LogProducer::new` and `LogConsumer::new`; `end_ptr` is
`head.add(alignmentOffset)` in units of `E`. -/
def alignmentOffset (sizeE : Nat) : Nat := headerSize / sizeE + 1

/-- Byte offset from the region head of the first record slot the code
actually uses. -/
def firstSlotOffset (sizeE : Nat) : Nat := alignmentOffset sizeE * sizeE

/-- Follows the spec's words, for comparison with `firstSlotOffset`:
"the first usable record slot begins at the first position at or after
the header (condition variable + sequence counter) whose offset is a
multiple of the record size", i.e. the least multiple of `sizeE` that is
`≥ headerSize`. -/
def claimedFirstSlotOffset (sizeE : Nat) : Nat :=
  sizeE * ((headerSize + sizeE - 1) / sizeE)

/-- Shared memory behind a log: the condvar's futex value, the `u64`
sequence counter, and the record slots (`mem i` is the `E` value whose
first byte sits `i * size_of::<E>()` bytes past the head; a fresh region
holds arbitrary bytes, hence an arbitrary total function). -/
structure LogRegion (E : Type) where
  condvar : Int
  seq : Nat
  mem : Nat → E

/-- Process-local state of a `LogProducer`: the `available` capacity
counter and `end_ptr` (as a slot index in units of `E`). -/
structure ProducerState where
  available : Nat
  endIdx : Nat
deriving DecidableEq, Repr

/-- Process-local state of a `LogConsumer`: `next_sequence` and `end_ptr`
(as a slot index in units of `E`). -/
structure ConsumerState where
  nextSeq : Nat
  endIdx : Nat
deriving DecidableEq, Repr

/-- Errors of `examples/log.rs` (`enum ErrorCode`). -/
inductive LogErrorCode where
  | NoSpaceLeftInSharedMemory
  | NotifyAllFailed
deriving DecidableEq, Repr

/-- Shallow embedding of `LogProducer::new`: stores the header pointers,
computes the alignment offset and the available capacity
`map_size / size_of::<E>() - alignment_offset`, and performs no write to
the region (the region is returned unchanged). -/
def logProducerNew {E : Type} (size sizeE : Nat) (rg : LogRegion E) :
    ProducerState × LogRegion E :=
  ({ available := size / sizeE - alignmentOffset sizeE
     endIdx := alignmentOffset sizeE }, rg)

/-- Shallow embedding of `LogConsumer::new`: stores the header pointers
and hard-codes `next_sequence: 1`; nothing is read from the region. -/
def logConsumerNew {E : Type} (rg : LogRegion E) (sizeE : Nat) : ConsumerState :=
  { nextSeq := 1, endIdx := alignmentOffset sizeE }

/-- Shallow embedding of `LogProducer::insert`.

If `available > 0` the code volatile-reads the sequence number, writes
the record at `end_ptr` with a plain (`ptr::write`, non-volatile) write,
volatile-writes the incremented sequence number, advances `end_ptr`,
decrements `available` and calls `notify_all` (which `fetch_add`s the
futex value and wakes waiters; `wakeOk` tells whether the `FUTEX_WAKE`
syscall reports `EINVAL`).  Otherwise it fails with
`NoSpaceLeftInSharedMemory` and changes nothing. -/
def insert {E : Type} (p : ProducerState) (rg : LogRegion E) (record : E)
    (wakeOk : Bool) : ProducerState × LogRegion E × Except LogErrorCode Unit :=
  if 0 < p.available then
    let s := rg.seq
    let rg' : LogRegion E :=
      { condvar := wrap32 (rg.condvar + 1)
        seq := (s + 1) % 2 ^ 64
        mem := fun i => if i = p.endIdx then record else rg.mem i }
    ({ available := p.available - 1, endIdx := p.endIdx + 1 }, rg',
      if wakeOk then Except.ok () else Except.error LogErrorCode.NotifyAllFailed)
  else (p, rg, Except.error LogErrorCode.NoSpaceLeftInSharedMemory)

/-- Runs a sequence of `insert` calls, collecting each call's result. -/
def runInserts {E : Type} :
    ProducerState → LogRegion E → List (E × Bool) →
    ProducerState × LogRegion E × List (Except LogErrorCode Unit)
  | p, rg, [] => (p, rg, [])
  | p, rg, x :: rest =>
    let step := insert p rg x.1 x.2
    let tail := runInserts step.1 step.2.1 rest
    (tail.1, tail.2.1, step.2.2 :: tail.2.2)

/-- The memory accesses `LogProducer::insert` issues, in program order;
each carries whether the access is volatile (non-cached). -/
inductive InsertOp (E : Type) where
  | readSeq (volatile : Bool) (value : Nat)
  | writeRecordSlot (slot : Nat) (record : E) (volatile : Bool)
  | writeSeq (value : Nat) (volatile : Bool)
  | notifyAllWake
deriving DecidableEq, Repr

/-- Trace of the memory accesses performed by a call to
`LogProducer::insert`: on the success path a volatile read of the
sequence number, a plain (non-volatile) `ptr::write` of the record at
`end_ptr`, a volatile write of the incremented sequence number, then the
`notify_all` wake; on the failure path no access at all. -/
def insertOps {E : Type} (p : ProducerState) (rg : LogRegion E) (record : E) :
    List (InsertOp E) :=
  if 0 < p.available then
    [InsertOp.readSeq true rg.seq,
     InsertOp.writeRecordSlot p.endIdx record false,
     InsertOp.writeSeq ((rg.seq + 1) % 2 ^ 64) true,
     InsertOp.notifyAllWake]
  else []

/-- Whether a trace contains a volatile write of a record slot. -/
def hasVolatileRecordWrite {E : Type} (ops : List (InsertOp E)) : Bool :=
  ops.any fun op =>
    match op with
    | InsertOp.writeRecordSlot _ _ v => v
    | _ => false

/-- Outcome of the single `Condvar::wait` a `LogConsumer::next` call may
perform. -/
inductive WaitOutcome where
  | woken
  | interrupted
deriving DecidableEq, Repr

/-- Shallow embedding of `LogConsumer::next`.

`c0` is the value obtained by the (single) volatile read of the shared
sequence number at the top of the call.  If `c0 < next_sequence` the code
waits once on the condvar, returning `None` when the wait is interrupted.
It then tests `c0 >= next_sequence` — the value sampled *before* the
wait; the counter is never re-read — and on success volatile-reads the
record at `end_ptr`, increments `next_sequence`, advances `end_ptr` and
returns the record; otherwise it returns `None`. -/
def logConsumerNext {E : Type} (st : ConsumerState) (c0 : Nat)
    (w : WaitOutcome) (mem : Nat → E) : ConsumerState × Option E :=
  if c0 < st.nextSeq ∧ w = WaitOutcome.interrupted then (st, none)
  else if st.nextSeq ≤ c0 then
    ({ nextSeq := (st.nextSeq + 1) % 2 ^ 64, endIdx := st.endIdx + 1 },
      some (mem st.endIdx))
  else (st, none)

/-- Follows the spec's words, for comparison with `logConsumerNext`:
after waking the consumer *re-reads* the shared counter (`c1` is the
value that re-read would observe) and returns the record when that
re-read value has reached or passed the expected sequence. -/
def specLogConsumerNext {E : Type} (st : ConsumerState) (c0 c1 : Nat)
    (w : WaitOutcome) (mem : Nat → E) : ConsumerState × Option E :=
  if c0 < st.nextSeq then
    match w with
    | WaitOutcome.interrupted => (st, none)
    | WaitOutcome.woken =>
      if st.nextSeq ≤ c1 then
        ({ nextSeq := (st.nextSeq + 1) % 2 ^ 64, endIdx := st.endIdx + 1 },
          some (mem st.endIdx))
      else (st, none)
  else
    if st.nextSeq ≤ c0 then
      ({ nextSeq := (st.nextSeq + 1) % 2 ^ 64, endIdx := st.endIdx + 1 },
        some (mem st.endIdx))
    else (st, none)

/-! ## Keyed dictionary (`examples/dictionary.rs`)

The region holds the `usize` written-record count at the head followed by
record slots; both owner and client set `end_ptr = (head as *(mut/const) R).add(1)`,
so slot addresses are indexed in units of `size_of::<R>()` from the head
and the first record sits at unit `1`.  The `HashMap` indexes are
modelled as association lists where a later insertion is consed in front
and lookup takes the first match, which matches `HashMap::insert`'s
replacement semantics.  The key extraction function of the `Record`
trait is passed explicitly as `key`. -/

/-- First-match lookup in an association list (`HashMap::get`). -/
def lookupA {K : Type} [DecidableEq K] : List (K × Nat) → K → Option Nat
  | [], _ => none
  | (k, i) :: rest, k' => if k' = k then some i else lookupA rest k'

/-- Shared memory behind a dictionary: the `usize` written-record count
and the record slots in units of `size_of::<R>()` from the head. -/
structure DictRegion (R : Type) where
  written : Nat
  mem : Nat → R

/-- Process-local state of a `ShmDictionaryOwner`: `end_ptr` (in units of
`R`), the `available` capacity and the private key→value index. -/
structure OwnerState (K : Type) where
  endIdx : Nat
  available : Nat
  index : List (K × Nat)

/-- Process-local state of a `ShmDictionaryClient`: `end_ptr` (in units
of `R`), the `next_read` cursor and the private key→slot index. -/
structure ClientState (K : Type) where
  endIdx : Nat
  nextRead : Nat
  index : List (K × Nat)

/-- Errors surfaced by `dictionary.rs` (the `nix::Errno` values it uses). -/
inductive DictErrorCode where
  | ENOKEY
  | ENOMEM
deriving DecidableEq, Repr

/-- Shallow embedding of `ShmDictionaryOwner::new`: writes `0` to the
written-record count, sets `end_ptr = head.add(1)` (in units of `R`) and
`available = (size - size_of::<u8>()) / size_of::<R>()`. -/
def ownerNew {K R : Type} (size sizeR : Nat) (rg : DictRegion R) :
    OwnerState K × DictRegion R :=
  ({ endIdx := 1, available := (size - 1) / sizeR, index := [] },
   { rg with written := 0 })

/-- Shallow embedding of `ShmDictionaryOwner::put`.

With capacity left, the code volatile-reads the written count `w` and
looks the record's key up in its private index.  If found at `i`, it
volatile-writes the record at `end_ptr.sub(w - i + 1)` and is done.  If
the key is new, it writes the record at `end_ptr`, volatile-writes the
incremented count, advances `end_ptr`, records the key in the index at
the value re-read from the written-count pointer (i.e. `w + 1`), and
decrements `available`.  Without capacity it fails with `ENOMEM`. -/
def put {K R : Type} [DecidableEq K] (key : R → K) (o : OwnerState K)
    (rg : DictRegion R) (record : R) :
    OwnerState K × DictRegion R × Except DictErrorCode Unit :=
  if 0 < o.available then
    let k := key record
    let w := rg.written
    match lookupA o.index k with
    | some i =>
      (o,
       { rg with mem := fun j => if j = o.endIdx - (w - i + 1) then record else rg.mem j },
       Except.ok ())
    | none =>
      let w' := (w + 1) % 2 ^ 64
      ({ endIdx := o.endIdx + 1, available := o.available - 1,
         index := (k, w') :: o.index },
       { written := w', mem := fun j => if j = o.endIdx then record else rg.mem j },
       Except.ok ())
  else (o, rg, Except.error DictErrorCode.ENOMEM)

/-- Runs a sequence of `put` calls, keeping only the final state. -/
def runPuts {K R : Type} [DecidableEq K] (key : R → K) :
    List R → OwnerState K × DictRegion R → OwnerState K × DictRegion R
  | [], s => s
  | record :: rest, s =>
    runPuts key rest ((put key s.1 s.2 record).1, (put key s.1 s.2 record).2.1)

/-- Whether an `Except` result of `put` is `Ok`. -/
def isOkResult : Except DictErrorCode Unit → Bool
  | Except.ok _ => true
  | Except.error _ => false

/-- Whether every `put` in a sequence returns `Ok`. -/
def runPutsOk {K R : Type} [DecidableEq K] (key : R → K) :
    List R → OwnerState K × DictRegion R → Bool
  | [], _ => true
  | record :: rest, s =>
    isOkResult (put key s.1 s.2 record).2.2 &&
      runPutsOk key rest ((put key s.1 s.2 record).1, (put key s.1 s.2 record).2.1)

/-- The record last `put` for a given key in a sequence, if any. -/
def lastPut {K R : Type} [DecidableEq K] (key : R → K) :
    List R → K → Option R
  | [], _ => none
  | r :: rest, k =>
    match lastPut key rest k with
    | some r' => some r'
    | none => if key r = k then some r else none

/-- Shallow embedding of `ShmDictionaryClient::new`. -/
def clientNew {K : Type} : ClientState K :=
  { endIdx := 1, nextRead := 0, index := [] }

/-- The `while self.next_read < records_count` indexing loop of
`ShmDictionaryClient::get`, as fuel-based recursion: each iteration
volatile-reads the record at `end_ptr`, inserts its key at position
`next_read` into the private index, and advances both cursors. -/
def catchUp {K R : Type} [DecidableEq K] (key : R → K) (rg : DictRegion R)
    (count : Nat) : Nat → ClientState K → ClientState K
  | 0, c => c
  | fuel + 1, c =>
    if c.nextRead < count then
      catchUp key rg count fuel
        { endIdx := c.endIdx + 1, nextRead := c.nextRead + 1,
          index := (key (rg.mem c.endIdx), c.nextRead) :: c.index }
    else c

/-- Shallow embedding of `ShmDictionaryClient::get`.

The code volatile-reads the written count; if the key is not in the
private index it first runs the indexing loop up to that count.  It then
looks the key up: if absent it fails with `ENOKEY`, otherwise it returns
the record volatile-read at `end_ptr.sub(records_count - i)`. -/
def get {K R : Type} [DecidableEq K] (key : R → K) (c : ClientState K)
    (rg : DictRegion R) (k : K) : ClientState K × Except DictErrorCode R :=
  let count := rg.written
  let c' := if (lookupA c.index k).isSome then c
            else catchUp key rg count (count - c.nextRead) c
  match lookupA c'.index k with
  | none => (c', Except.error DictErrorCode.ENOKEY)
  | some i => (c', Except.ok (rg.mem (c'.endIdx - (count - i))))

/-! ## Invariants used in the dictionary proofs -/

/-- Invariant tying a dictionary owner's private state to the shared
region: `end_ptr` sits one slot past the last written record, the
written count cannot wrap given the remaining capacity, every index
entry points into the written range at a slot that currently holds a
record with that key, and every written slot's key is indexed at that
very slot. -/
def OwnerInv {K R : Type} [DecidableEq K] (key : R → K) (o : OwnerState K)
    (rg : DictRegion R) : Prop :=
  o.endIdx = rg.written + 1 ∧
  rg.written + o.available < 2 ^ 64 ∧
  (∀ k i, lookupA o.index k = some i →
    1 ≤ i ∧ i ≤ rg.written ∧ key (rg.mem i) = k) ∧
  (∀ j, 1 ≤ j → j ≤ rg.written → lookupA o.index (key (rg.mem j)) = some j)

/-- Invariant of a dictionary client mid-scan over a region whose
written count is `count`: `end_ptr` is one past the `next_read` cursor,
every index entry records the key of an already-scanned slot (0-based
position `i` for the record at slot unit `i + 1`), and every scanned
slot's key is indexed. -/
def ClientInv {K R : Type} [DecidableEq K] (key : R → K) (rg : DictRegion R)
    (count : Nat) (c : ClientState K) : Prop :=
  c.endIdx = c.nextRead + 1 ∧
  c.nextRead ≤ count ∧
  (∀ k i, lookupA c.index k = some i →
    i + 1 ≤ c.nextRead ∧ key (rg.mem (i + 1)) = k) ∧
  (∀ j, 1 ≤ j → j ≤ c.nextRead → lookupA c.index (key (rg.mem j)) = some (j - 1))

/-! ## Condition variable theorems -/

/-- `condvarWaitModel` succeeds exactly when the underlying futex loop
exits through its `Ok` path. -/
theorem condvarWaitModel_ok_iff (expected : Int) (steps : List (Int × Int)) :
    condvarWaitModel expected steps = some (Except.ok ()) ↔
    futexWaitLoop expected steps = some FutexWaitResult.ok := by
  unfold condvarWaitModel
  cases h : futexWaitLoop expected steps with
  | none => simp
  | some r => cases r <;> simp

/-- The futex wait loop returns `Ok` only if some observed load exceeded
the initially sampled value. -/
theorem futexWaitLoop_ok_mem (expected : Int) :
    ∀ steps : List (Int × Int), futexWaitLoop expected steps = some FutexWaitResult.ok →
      ∃ p ∈ steps, expected < p.1 := by
  intro steps
  induction steps with
  | nil => intro h; simp [futexWaitLoop] at h
  | cons q rest ih =>
    intro h
    by_cases hv : expected < q.1
    · exact ⟨q, List.mem_cons_self _ _, hv⟩
    · by_cases hr : q.2 = EINTR
      · unfold futexWaitLoop at h
        rw [if_neg hv, if_pos hr] at h
        exact absurd h (by simp)
      · unfold futexWaitLoop at h
        rw [if_neg hv, if_neg hr] at h
        obtain ⟨p, hp, hlt⟩ := ih h
        exact ⟨p, List.mem_cons_of_mem _ hp, hlt⟩

/-- When the loop is still going (every earlier load was at or below the
sample and no earlier syscall was interrupted) and the next syscall
reports `EINTR`, the loop returns the interrupted outcome. -/
theorem futexWaitLoop_interrupted (expected : Int) :
    ∀ (pre : List (Int × Int)) (v r : Int) (post : List (Int × Int)),
      (∀ p ∈ pre, p.1 ≤ expected ∧ p.2 ≠ EINTR) → v ≤ expected → r = EINTR →
      futexWaitLoop expected (pre ++ (v, r) :: post) =
        some FutexWaitResult.interrupted := by
  intro pre
  induction pre with
  | nil =>
    intro v r post _ hv hr
    unfold futexWaitLoop
    rw [List.nil_append]
    simp only []
    rw [if_neg (not_lt.mpr hv), if_pos hr]
  | cons q rest ih =>
    intro v r post hpre hv hr
    have hq := hpre q (List.mem_cons_self _ _)
    have hrest : ∀ p ∈ rest, p.1 ≤ expected ∧ p.2 ≠ EINTR :=
      fun p hp => hpre p (List.mem_cons_of_mem _ hp)
    rw [List.cons_append]
    unfold futexWaitLoop
    rw [if_neg (not_lt.mpr hq.1), if_neg hq.2]
    exact ih v r post hrest hv hr

/-- C2: a `Condvar::wait` call returns successfully only after the
embedded generation counter is observed to have changed from (in fact to
exceed) the value sampled at call time; and whenever the `FUTEX_WAIT`
syscall is interrupted while the thread is still waiting, the call fails
with the distinct `WaitInterrupted` condition instead of returning
success. -/
theorem c2_condvar_wait (expected : Int) (steps : List (Int × Int)) :
    (condvarWaitModel expected steps = some (Except.ok ()) →
      ∃ p ∈ steps, p.1 ≠ expected ∧ expected < p.1) ∧
    (∀ (pre : List (Int × Int)) (v r : Int) (post : List (Int × Int)),
      steps = pre ++ (v, r) :: post →
      (∀ p ∈ pre, p.1 ≤ expected ∧ p.2 ≠ EINTR) → v ≤ expected → r = EINTR →
      condvarWaitModel expected steps =
        some (Except.error CondvarErrorCode.WaitInterrupted)) := by
  constructor
  · intro h
    obtain ⟨p, hp, hlt⟩ :=
      futexWaitLoop_ok_mem expected steps ((condvarWaitModel_ok_iff expected steps).mp h)
    exact ⟨p, hp, ne_of_gt hlt, hlt⟩
  · intro pre v r post hsteps hpre hv hr
    subst hsteps
    unfold condvarWaitModel
    rw [futexWaitLoop_interrupted expected pre v r post hpre hv hr]
    rfl

/-- Witness for `c2_condvar_wait`: with the counter sampled at `0`, one
loop iteration that still sees `0` and whose syscall reports `EINTR`
makes `wait` fail with `WaitInterrupted`. -/
theorem c2_condvar_wait_witness :
    condvarWaitModel 0 [(0, 4)] =
      some (Except.error CondvarErrorCode.WaitInterrupted) :=
  (c2_condvar_wait 0 [(0, 4)]).2 [] 0 4 [] rfl (by simp) (by decide) rfl

/-! ## Region manager theorems -/

/-- C6: releasing a non-owning `ShmMap` performs no destructive
operation and releasing an owning `OwnedShmMap` unmaps and then unlinks
the name exactly once; but on a failure during `open` (here: `shm_open`
succeeds and `mmap` fails) the non-owning path removes the named
resource `/dev/shm/<path>`, contradicting the claim that a non-owning
mapping never destroys the named resource on any path. -/
theorem c6_open_failure_destroys_name :
    shmMapDropOps.any destroysName = false ∧
    ownedShmMapDropOps = [FsOp.munmapCall, FsOp.shmUnlinkCall] ∧
    ownedShmMapDropOps.filter destroysName = [FsOp.shmUnlinkCall] ∧
    (openOps true ⟨true, false, true⟩).2 = false ∧
    (openOps true ⟨true, false, true⟩).1.any destroysName = true := by
  decide

/-! ## Log consumer theorems -/

/-- C1: `LogConsumer::next` compares the counter value sampled *before*
the wait instead of re-reading it after waking.  At the failing input —
expected sequence 1, sampled counter 0, a genuine wake-up after the
producer advanced the counter to 1 — the code returns `None` and leaves
the cursor unchanged, while the spec's re-reading consumer returns the
record at the current slot and advances. -/
theorem c1_next_ignores_reread_counter :
    logConsumerNext (E := Nat) ⟨1, 5⟩ 0 WaitOutcome.woken (fun i => i) =
      (⟨1, 5⟩, none) ∧
    specLogConsumerNext (E := Nat) ⟨1, 5⟩ 0 1 WaitOutcome.woken (fun i => i) =
      (⟨2, 6⟩, some 5) :=
  ⟨rfl, rfl⟩

/-- C9 counterexample: a consumer attached to a log whose shared header
already stores sequence counter 5 starts with `next_sequence = 1`, not a
value derived from the header (it would have to be 6 to resume past the
already-written records). -/
theorem c9_counterexample_cursor_not_from_header :
    (logConsumerNew (E := Nat) ⟨0, 5, fun i => i⟩ 8).nextSeq = 1 ∧
    (1 : Nat) ≠ 5 + 1 :=
  ⟨rfl, by decide⟩

/-- C9 amended: `LogConsumer::new` always initialises its read cursor to
the constant sequence 1, independent of anything stored in the shared
header — a reattaching consumer replays the log from the first record. -/
theorem c9_initial_cursor_is_constant_one {E : Type} :
    ∀ (rg rg' : LogRegion E) (sizeE : Nat),
      (logConsumerNew rg sizeE).nextSeq = 1 ∧
      logConsumerNew rg sizeE = logConsumerNew rg' sizeE :=
  fun _ _ _ => ⟨rfl, rfl⟩

/-! ## Log layout theorems -/

/-- C5 counterexample: for 4-byte records the code places the first slot
at byte offset 16, not at the first multiple of the record size at or
after the 12-byte header, which is 12. -/
theorem c5_counterexample_alignment :
    firstSlotOffset 4 = 16 ∧ claimedFirstSlotOffset 4 = 12 ∧
    firstSlotOffset 4 ≠ claimedFirstSlotOffset 4 := by
  decide

/-- C5 amended: the first usable record slot begins at the least multiple
of the record size *strictly greater* than the header size (so one full
slot is wasted whenever the record size divides the header size), and the
capacity is `size / sizeE` minus the `alignmentOffset` slots consumed by
the header and this padding; producer and consumer compute the same first
slot. -/
theorem c5_first_slot_and_capacity {E : Type} (sizeE size : Nat)
    (rg : LogRegion E) (hs : 0 < sizeE) :
    headerSize < firstSlotOffset sizeE ∧
    sizeE ∣ firstSlotOffset sizeE ∧
    (∀ m, headerSize < m → sizeE ∣ m → firstSlotOffset sizeE ≤ m) ∧
    (logProducerNew size sizeE rg).1.endIdx = alignmentOffset sizeE ∧
    (logConsumerNew rg sizeE).endIdx = alignmentOffset sizeE ∧
    (logProducerNew size sizeE rg).1.available =
      size / sizeE - alignmentOffset sizeE := by
  refine ⟨?_, ?_, ?_, rfl, rfl, rfl⟩
  · have h1 : headerSize / sizeE * sizeE + headerSize % sizeE = headerSize :=
      Nat.div_add_mod' headerSize sizeE
    have h2 : headerSize % sizeE < sizeE := Nat.mod_lt _ hs
    show headerSize < (headerSize / sizeE + 1) * sizeE
    rw [Nat.add_mul, one_mul]
    omega
  · exact dvd_mul_left sizeE (alignmentOffset sizeE)
  · intro m hm hdvd
    obtain ⟨t, ht⟩ := hdvd
    have hq : headerSize / sizeE * sizeE ≤ headerSize := Nat.div_mul_le_self _ _
    have htq : headerSize / sizeE + 1 ≤ t := by
      by_contra hc
      push_neg at hc
      have hmul : sizeE * t ≤ sizeE * (headerSize / sizeE) :=
        Nat.mul_le_mul_left _ (by omega)
      have hcomm : sizeE * (headerSize / sizeE) = headerSize / sizeE * sizeE :=
        mul_comm _ _
      omega
    show (headerSize / sizeE + 1) * sizeE ≤ m
    have := Nat.mul_le_mul_right sizeE htq
    have hcomm : sizeE * t = t * sizeE := mul_comm _ _
    omega

/-- Witness for `c5_first_slot_and_capacity` at 8-byte records (the
`u64` records of the examples): the first slot lands strictly past the
header. -/
theorem c5_first_slot_and_capacity_witness :
    (0 : Nat) < 8 ∧ headerSize < firstSlotOffset 8 :=
  ⟨by decide,
   (c5_first_slot_and_capacity (E := Nat) 8 32 ⟨0, 0, fun i => i⟩ (by decide)).1⟩

/-! ## Log producer trace theorems -/

/-- C3 counterexample: a successful `LogProducer::insert` (here with
capacity 3, cursor at slot 2, record 42 over a fresh region) performs
*no* volatile write of the record slot at all — the record is written
with plain `ptr::write` — so the claim that the record is written via a
non-cached (volatile) write fails. -/
theorem c3_counterexample_no_volatile_record_write :
    hasVolatileRecordWrite (insertOps (E := Nat) ⟨3, 2⟩ ⟨0, 0, fun i => i⟩ 42) = false ∧
    insertOps (E := Nat) ⟨3, 2⟩ ⟨0, 0, fun i => i⟩ 42 ≠ [] := by
  decide

/-- C3 amended: in every successful `insert` the record is written into
its slot with a plain (non-volatile) `ptr::write` that is issued strictly
before the volatile write advancing the shared sequence counter, and no
counter advance is issued before the record write — the counter never
counts a slot whose record write has not been issued. -/
theorem c3_record_write_precedes_counter_write {E : Type} (p : ProducerState)
    (rg : LogRegion E) (record : E) (h : 0 < p.available) :
    ∃ i j, i < j ∧
      (insertOps p rg record).get? i =
        some (InsertOp.writeRecordSlot p.endIdx record false) ∧
      (insertOps p rg record).get? j =
        some (InsertOp.writeSeq ((rg.seq + 1) % 2 ^ 64) true) ∧
      ∀ m, m < i →
        (insertOps p rg record).get? m ≠
          some (InsertOp.writeSeq ((rg.seq + 1) % 2 ^ 64) true) := by
  refine ⟨1, 2, by omega, ?_, ?_, ?_⟩
  · simp [insertOps, h]
  · simp [insertOps, h]
  · intro m hm
    have hm0 : m = 0 := by omega
    subst hm0
    simp [insertOps, h]

/-! ## Log producer state-machine lemmas -/

/-- Unfolding of `insert` on the success path. -/
theorem insert_pos {E : Type} (p : ProducerState) (rg : LogRegion E)
    (record : E) (wk : Bool) (h : 0 < p.available) :
    insert p rg record wk =
      ({ available := p.available - 1, endIdx := p.endIdx + 1 },
       { condvar := wrap32 (rg.condvar + 1), seq := (rg.seq + 1) % 2 ^ 64,
         mem := fun i => if i = p.endIdx then record else rg.mem i },
       if wk then Except.ok () else Except.error LogErrorCode.NotifyAllFailed) := by
  simp [insert, h]

/-- Unfolding of `insert` on the no-capacity path: nothing changes. -/
theorem insert_zero {E : Type} (p : ProducerState) (rg : LogRegion E)
    (record : E) (wk : Bool) (h : ¬ 0 < p.available) :
    insert p rg record wk =
      (p, rg, Except.error LogErrorCode.NoSpaceLeftInSharedMemory) := by
  simp [insert, h]

/-- Unfolding of `runInserts` on a cons cell. -/
theorem runInserts_cons {E : Type} (p : ProducerState) (rg : LogRegion E)
    (x : E × Bool) (rest : List (E × Bool)) :
    runInserts p rg (x :: rest) =
      ((runInserts (insert p rg x.1 x.2).1 (insert p rg x.1 x.2).2.1 rest).1,
       (runInserts (insert p rg x.1 x.2).1 (insert p rg x.1 x.2).2.1 rest).2.1,
       (insert p rg x.1 x.2).2.2 ::
         (runInserts (insert p rg x.1 x.2).1 (insert p rg x.1 x.2).2.1 rest).2.2) :=
  rfl

/-- Running a concatenation of insert batches runs them in sequence and
concatenates the result lists. -/
theorem runInserts_append {E : Type} (xs : List (E × Bool)) :
    ∀ (ys : List (E × Bool)) (p : ProducerState) (rg : LogRegion E),
      runInserts p rg (xs ++ ys) =
        ((runInserts (runInserts p rg xs).1 (runInserts p rg xs).2.1 ys).1,
         (runInserts (runInserts p rg xs).1 (runInserts p rg xs).2.1 ys).2.1,
         (runInserts p rg xs).2.2 ++
           (runInserts (runInserts p rg xs).1 (runInserts p rg xs).2.1 ys).2.2) := by
  induction xs with
  | nil => intro ys p rg; rfl
  | cons x rest ih =>
    intro ys p rg
    rw [List.cons_append]
    simp only [runInserts, List.append_eq]
    rw [ih ys (insert p rg x.1 x.2).1 (insert p rg x.1 x.2).2.1]
    rfl

/-- With enough capacity and successful wake-ups, every insert in a batch
returns `Ok` and the capacity decreases by the batch length. -/
theorem runInserts_ok_results {E : Type} (inputs : List (E × Bool)) :
    ∀ (p : ProducerState) (rg : LogRegion E),
      inputs.length ≤ p.available → (∀ x ∈ inputs, x.2 = true) →
      (runInserts p rg inputs).2.2 =
        List.replicate inputs.length (Except.ok ()) ∧
      (runInserts p rg inputs).1.available = p.available - inputs.length := by
  induction inputs with
  | nil => intro p rg _ _; simp [runInserts]
  | cons x rest ih =>
    intro p rg hcap hwake
    rw [List.length_cons] at hcap
    have hava : 0 < p.available := by omega
    have hx : x.2 = true := hwake x (List.mem_cons_self _ _)
    have hrest : ∀ y ∈ rest, y.2 = true :=
      fun y hy => hwake y (List.mem_cons_of_mem _ hy)
    have hrw2 : insert p rg x.1 x.2 =
        ({ available := p.available - 1, endIdx := p.endIdx + 1 },
         { condvar := wrap32 (rg.condvar + 1), seq := (rg.seq + 1) % 2 ^ 64,
           mem := fun i => if i = p.endIdx then x.1 else rg.mem i },
         Except.ok ()) := by
      rw [insert_pos p rg x.1 x.2 hava, hx]
      rfl
    obtain ⟨ih1, ih2⟩ := ih { available := p.available - 1, endIdx := p.endIdx + 1 }
      { condvar := wrap32 (rg.condvar + 1), seq := (rg.seq + 1) % 2 ^ 64,
        mem := fun i => if i = p.endIdx then x.1 else rg.mem i }
      (by show rest.length ≤ p.available - 1; omega) hrest
    dsimp only at ih2
    rw [runInserts_cons, hrw2]
    dsimp only
    constructor
    · rw [List.length_cons, List.replicate_succ, ih1]
    · rw [List.length_cons, ih2]
      omega

/-- With enough capacity (and no `u64` wrap) a batch of inserts advances
the shared sequence counter by exactly the batch length, whatever the
wake outcomes are. -/
theorem runInserts_seq {E : Type} (inputs : List (E × Bool)) :
    ∀ (p : ProducerState) (rg : LogRegion E),
      inputs.length ≤ p.available → rg.seq + inputs.length < 2 ^ 64 →
      (runInserts p rg inputs).2.1.seq = rg.seq + inputs.length := by
  induction inputs with
  | nil => intro p rg _ _; simp [runInserts]
  | cons x rest ih =>
    intro p rg hcap hflow
    simp only [List.length_cons] at hcap hflow ⊢
    have hava : 0 < p.available := by omega
    have hmod : (rg.seq + 1) % 2 ^ 64 = rg.seq + 1 := Nat.mod_eq_of_lt (by omega)
    simp only [runInserts, insert_pos p rg x.1 x.2 hava]
    rw [ih { available := p.available - 1, endIdx := p.endIdx + 1 }
      { condvar := wrap32 (rg.condvar + 1), seq := (rg.seq + 1) % 2 ^ 64,
        mem := fun i => if i = p.endIdx then x.1 else rg.mem i }
      (by simp only []; omega) (by simp only [hmod]; omega)]
    simp only [hmod]
    omega

/-- C4: a log created with capacity for exactly `n` records accepts the
first `n` inserts (all wake-ups succeeding) and fails the `(n+1)`-th with
`NoSpaceLeftInSharedMemory`; the failing call writes nothing and leaves
the producer state (capacity, slot cursor) and the whole shared region
(counter and record slots) exactly as they were after the `n`-th call. -/
theorem c4_log_capacity {E : Type} (size sizeE n : Nat) (rg : LogRegion E)
    (ys : List (E × Bool)) (z : E × Bool)
    (hcap : (logProducerNew size sizeE rg).1.available = n)
    (hylen : ys.length = n)
    (hwake : ∀ x ∈ ys, x.2 = true) :
    (runInserts (logProducerNew size sizeE rg).1 rg (ys ++ [z])).2.2 =
      List.replicate n (Except.ok ()) ++
        [Except.error LogErrorCode.NoSpaceLeftInSharedMemory] ∧
    (runInserts (logProducerNew size sizeE rg).1 rg (ys ++ [z])).1 =
      (runInserts (logProducerNew size sizeE rg).1 rg ys).1 ∧
    (runInserts (logProducerNew size sizeE rg).1 rg (ys ++ [z])).2.1 =
      (runInserts (logProducerNew size sizeE rg).1 rg ys).2.1 := by
  have h1 := runInserts_ok_results ys (logProducerNew size sizeE rg).1 rg
    (by omega) hwake
  have hzero :
      ¬ 0 < (runInserts (logProducerNew size sizeE rg).1 rg ys).1.available := by
    rw [h1.2]
    omega
  have hz := insert_zero
    (runInserts (logProducerNew size sizeE rg).1 rg ys).1
    (runInserts (logProducerNew size sizeE rg).1 rg ys).2.1 z.1 z.2 hzero
  have hrun1 :
      runInserts (runInserts (logProducerNew size sizeE rg).1 rg ys).1
        (runInserts (logProducerNew size sizeE rg).1 rg ys).2.1 [z] =
      ((runInserts (logProducerNew size sizeE rg).1 rg ys).1,
       (runInserts (logProducerNew size sizeE rg).1 rg ys).2.1,
       [Except.error LogErrorCode.NoSpaceLeftInSharedMemory]) := by
    simp only [runInserts, hz]
  rw [runInserts_append ys [z] (logProducerNew size sizeE rg).1 rg, hrun1]
  refine ⟨?_, rfl, rfl⟩
  rw [h1.1, hylen]

/-- Witness for `c4_log_capacity`: a 32-byte region with 8-byte records
holds exactly 2 records; the first two inserts succeed, the third fails. -/
theorem c4_log_capacity_witness :
    (runInserts (logProducerNew (E := Nat) 32 8 ⟨0, 0, fun i => i⟩).1
        ⟨0, 0, fun i => i⟩ ([((10 : Nat), true), (11, true)] ++ [(12, true)])).2.2 =
      List.replicate 2 (Except.ok ()) ++
        [Except.error LogErrorCode.NoSpaceLeftInSharedMemory] :=
  (c4_log_capacity 32 8 2 ⟨0, 0, fun i => i⟩ [(10, true), (11, true)] (12, true)
    rfl rfl (by decide)).1

/-- C10: `LogProducer::new` performs no write to the shared region (in
particular it never initialises the sequence counter), so after `n`
in-capacity inserts the counter holds `c + n`, where `c` is whatever the
region stored when the producer attached; the counter equals the number
of records written exactly when the region started zeroed. -/
theorem c10_producer_never_resets_counter {E : Type} (size sizeE : Nat)
    (rg : LogRegion E) (inputs : List (E × Bool))
    (hcap : inputs.length ≤ (logProducerNew size sizeE rg).1.available)
    (hflow : rg.seq + inputs.length < 2 ^ 64) :
    (logProducerNew size sizeE rg).2 = rg ∧
    (runInserts (logProducerNew size sizeE rg).1 rg inputs).2.1.seq =
      rg.seq + inputs.length ∧
    ((runInserts (logProducerNew size sizeE rg).1 rg inputs).2.1.seq =
        inputs.length ↔ rg.seq = 0) := by
  have h2 := runInserts_seq inputs (logProducerNew size sizeE rg).1 rg hcap hflow
  refine ⟨rfl, h2, ?_⟩
  rw [h2]
  omega

/-- Witness for `c10_producer_never_resets_counter`: attaching to a
region whose counter already reads 3 and inserting once leaves 4. -/
theorem c10_producer_never_resets_counter_witness :
    (logProducerNew (E := Nat) 32 8 ⟨0, 3, fun i => i⟩).2 =
      (⟨0, 3, fun i => i⟩ : LogRegion Nat) ∧
    (runInserts (logProducerNew (E := Nat) 32 8 ⟨0, 3, fun i => i⟩).1
        ⟨0, 3, fun i => i⟩ [((5 : Nat), true)]).2.1.seq = 3 + 1 ∧
    ((runInserts (logProducerNew (E := Nat) 32 8 ⟨0, 3, fun i => i⟩).1
        ⟨0, 3, fun i => i⟩ [((5 : Nat), true)]).2.1.seq = 1 ↔ (3 : Nat) = 0) :=
  c10_producer_never_resets_counter 32 8 ⟨0, 3, fun i => i⟩ [(5, true)]
    (by decide) (by decide)

/-- Witness for `c3_record_write_precedes_counter_write` at a concrete
producer state and region. -/
theorem c3_record_write_precedes_counter_write_witness :
    ∃ i j, i < j ∧
      (insertOps (E := Nat) ⟨3, 2⟩ ⟨0, 0, fun i => i⟩ 42).get? i =
        some (InsertOp.writeRecordSlot 2 42 false) ∧
      (insertOps (E := Nat) ⟨3, 2⟩ ⟨0, 0, fun i => i⟩ 42).get? j =
        some (InsertOp.writeSeq ((0 + 1) % 2 ^ 64) true) ∧
      ∀ m, m < i →
        (insertOps (E := Nat) ⟨3, 2⟩ ⟨0, 0, fun i => i⟩ 42).get? m ≠
          some (InsertOp.writeSeq ((0 + 1) % 2 ^ 64) true) :=
  c3_record_write_precedes_counter_write ⟨3, 2⟩ ⟨0, 0, fun i => i⟩ 42 (by decide)

/-! ## Dictionary lemmas -/

/-- Unfolding of `lookupA` on a cons cell. -/
theorem lookupA_cons {K : Type} [DecidableEq K] (k' k : K) (i : Nat)
    (rest : List (K × Nat)) :
    lookupA ((k, i) :: rest) k' = if k' = k then some i else lookupA rest k' :=
  rfl

/-- Unfolding of `put` when the key is already indexed: the record is
volatile-written at `end_ptr.sub(written - i + 1)` and nothing else
changes. -/
theorem put_overwrite {K R : Type} [DecidableEq K] (key : R → K)
    (o : OwnerState K) (rg : DictRegion R) (record : R) (i : Nat)
    (h : 0 < o.available) (hl : lookupA o.index (key record) = some i) :
    put key o rg record =
      (o,
       { rg with mem := fun j =>
           if j = o.endIdx - (rg.written - i + 1) then record else rg.mem j },
       Except.ok ()) := by
  simp [put, h, hl]

/-- Unfolding of `put` on a fresh key: append at `end_ptr`, advance the
written count, record the key at the new count, consume capacity. -/
theorem put_fresh {K R : Type} [DecidableEq K] (key : R → K)
    (o : OwnerState K) (rg : DictRegion R) (record : R)
    (h : 0 < o.available) (hl : lookupA o.index (key record) = none) :
    put key o rg record =
      ({ endIdx := o.endIdx + 1, available := o.available - 1,
         index := (key record, (rg.written + 1) % 2 ^ 64) :: o.index },
       { written := (rg.written + 1) % 2 ^ 64,
         mem := fun j => if j = o.endIdx then record else rg.mem j },
       Except.ok ()) := by
  simp [put, h, hl]

/-- Unfolding of `put` with no capacity left. -/
theorem put_noCapacity {K R : Type} [DecidableEq K] (key : R → K)
    (o : OwnerState K) (rg : DictRegion R) (record : R)
    (h : ¬ 0 < o.available) :
    put key o rg record = (o, rg, Except.error DictErrorCode.ENOMEM) := by
  simp [put, h]

/-- Unfolding of `runPuts` on a cons cell. -/
theorem runPuts_cons {K R : Type} [DecidableEq K] (key : R → K) (record : R)
    (rest : List R) (o : OwnerState K) (rg : DictRegion R) :
    runPuts key (record :: rest) (o, rg) =
      runPuts key rest ((put key o rg record).1, (put key o rg record).2.1) :=
  rfl

/-- A successful put sequence starting with `record` implies capacity was
left for it, and the rest of the sequence succeeds from the new state. -/
theorem runPutsOk_cons_true {K R : Type} [DecidableEq K] (key : R → K)
    (record : R) (rest : List R) (o : OwnerState K) (rg : DictRegion R)
    (h : runPutsOk key (record :: rest) (o, rg) = true) :
    0 < o.available ∧
    runPutsOk key rest ((put key o rg record).1, (put key o rg record).2.1) = true := by
  have h' : (isOkResult (put key o rg record).2.2 &&
      runPutsOk key rest ((put key o rg record).1, (put key o rg record).2.1)) = true := h
  simp only [Bool.and_eq_true] at h'
  refine ⟨?_, h'.2⟩
  by_contra hc
  have h1 := h'.1
  rw [put_noCapacity key o rg record hc] at h1
  simp [isOkResult] at h1

/-- `ownerNew` establishes the owner invariant (given that the computed
capacity fits a `usize`). -/
theorem ownerNew_inv {K R : Type} [DecidableEq K] (key : R → K)
    (size sizeR : Nat) (rg : DictRegion R)
    (hsize : (size - 1) / sizeR < 2 ^ 64) :
    OwnerInv key (ownerNew (K := K) size sizeR rg).1
      (ownerNew (K := K) size sizeR rg).2 := by
  refine ⟨rfl, ?_, ?_, ?_⟩
  · show 0 + (size - 1) / sizeR < 2 ^ 64
    omega
  · intro k i hl
    simp [ownerNew, lookupA] at hl
  · intro j hj1 hj2
    have h0 : (ownerNew (K := K) size sizeR rg).2.written = 0 := rfl
    rw [h0] at hj2
    omega

/-- `put` preserves the owner invariant. -/
theorem put_inv {K R : Type} [DecidableEq K] (key : R → K) (o : OwnerState K)
    (rg : DictRegion R) (record : R) (hinv : OwnerInv key o rg) :
    OwnerInv key (put key o rg record).1 (put key o rg record).2.1 := by
  obtain ⟨h1, h2, h3, h4⟩ := hinv
  by_cases hava : 0 < o.available
  · cases hl : lookupA o.index (key record) with
    | some i =>
      obtain ⟨hi1, hi2, hi3⟩ := h3 _ _ hl
      have haddr : o.endIdx - (rg.written - i + 1) = i := by omega
      unfold OwnerInv
      rw [put_overwrite key o rg record i hava hl, haddr]
      dsimp only
      refine ⟨h1, h2, ?_, ?_⟩
      · intro k i' hl'
        obtain ⟨g1, g2, g3⟩ := h3 _ _ hl'
        refine ⟨g1, g2, ?_⟩
        by_cases hii : i' = i
        · subst hii
          rw [if_pos rfl, ← hi3]
          exact g3
        · rw [if_neg hii]
          exact g3
      · intro j hj1 hj2
        by_cases hji : j = i
        · subst hji
          rw [if_pos rfl]
          exact hl
        · rw [if_neg hji]
          exact h4 j hj1 hj2
    | none =>
      have hw : (rg.written + 1) % 2 ^ 64 = rg.written + 1 :=
        Nat.mod_eq_of_lt (by omega)
      unfold OwnerInv
      rw [put_fresh key o rg record hava hl, hw]
      dsimp only
      refine ⟨by omega, by omega, ?_, ?_⟩
      · intro k i' hl'
        rw [lookupA_cons] at hl'
        by_cases hk : k = key record
        · rw [if_pos hk] at hl'
          have hi' : rg.written + 1 = i' := by
            simpa using hl'
          have hee : i' = o.endIdx := by omega
          refine ⟨by omega, by omega, ?_⟩
          rw [hee, if_pos rfl, hk]
        · rw [if_neg hk] at hl'
          obtain ⟨g1, g2, g3⟩ := h3 _ _ hl'
          have hne : i' ≠ o.endIdx := by omega
          refine ⟨g1, by omega, ?_⟩
          rw [if_neg hne]
          exact g3
      · intro j hj1 hj2
        rw [lookupA_cons]
        by_cases hji : j = o.endIdx
        · rw [if_pos hji, if_pos rfl, hji, h1]
        · rw [if_neg hji]
          have hjw : j ≤ rg.written := by omega
          have hkj : key (rg.mem j) ≠ key record := by
            intro he
            have hj4 := h4 j hj1 hjw
            rw [he, hl] at hj4
            exact absurd hj4 (by simp)
          rw [if_neg hkj]
          exact h4 j hj1 hjw
  · rw [put_noCapacity key o rg record hava]
    exact ⟨h1, h2, h3, h4⟩

/-- `runPuts` preserves the owner invariant. -/
theorem runPuts_inv {K R : Type} [DecidableEq K] (key : R → K)
    (recs : List R) :
    ∀ (o : OwnerState K) (rg : DictRegion R), OwnerInv key o rg →
      OwnerInv key (runPuts key recs (o, rg)).1 (runPuts key recs (o, rg)).2 := by
  induction recs with
  | nil => intro o rg h; exact h
  | cons r rest ih =>
    intro o rg h
    rw [runPuts_cons]
    exact ih _ _ (put_inv key o rg r h)

/-- Under the owner invariant, distinct written slots hold records with
distinct keys. -/
theorem ownerInv_distinct {K R : Type} [DecidableEq K] (key : R → K)
    (o : OwnerState K) (rg : DictRegion R) (hinv : OwnerInv key o rg) :
    ∀ j1 j2, 1 ≤ j1 → j1 ≤ rg.written → 1 ≤ j2 → j2 ≤ rg.written →
      key (rg.mem j1) = key (rg.mem j2) → j1 = j2 := by
  intro j1 j2 a b c d heq
  have e1 := hinv.2.2.2 j1 a b
  have e2 := hinv.2.2.2 j2 c d
  rw [heq, e2] at e1
  exact (Option.some.injEq _ _ ▸ e1).symm

/-- Unfolding of `lastPut` when the tail already holds a later put. -/
theorem lastPut_cons_of_some {K R : Type} [DecidableEq K] (key : R → K)
    (r : R) (rest : List R) (k : K) (r' : R)
    (h : lastPut key rest k = some r') :
    lastPut key (r :: rest) k = some r' := by
  simp [lastPut, h]

/-- Unfolding of `lastPut` when the tail holds no put for the key. -/
theorem lastPut_cons_of_none {K R : Type} [DecidableEq K] (key : R → K)
    (r : R) (rest : List R) (k : K) (h : lastPut key rest k = none) :
    lastPut key (r :: rest) k = if key r = k then some r else none := by
  simp [lastPut, h]

/-- A key never put has no last put. -/
theorem lastPut_eq_none {K R : Type} [DecidableEq K] (key : R → K) :
    ∀ (recs : List R) (k : K), (∀ r ∈ recs, key r ≠ k) →
      lastPut key recs k = none := by
  intro recs
  induction recs with
  | nil => intro k _; rfl
  | cons r rest ih =>
    intro k h
    rw [lastPut_cons_of_none key r rest k
        (ih k fun x hx => h x (List.mem_cons_of_mem _ hx)),
      if_neg (h r (List.mem_cons_self _ _))]

/-- The last put for `k` in `xs ++ r2 :: s3` is `r2` when `r2` carries
key `k` and nothing in `s3` does. -/
theorem lastPut_last_segment {K R : Type} [DecidableEq K] (key : R → K)
    (xs : List R) (r2 : R) (s3 : List R) (k : K)
    (hk : key r2 = k) (h3 : ∀ r ∈ s3, key r ≠ k) :
    lastPut key (xs ++ r2 :: s3) k = some r2 := by
  induction xs with
  | nil =>
    rw [List.nil_append,
      lastPut_cons_of_none key r2 s3 k (lastPut_eq_none key s3 k h3), if_pos hk]
  | cons x rest ih =>
    rw [List.cons_append, lastPut_cons_of_some key x (rest ++ r2 :: s3) k r2 ih]

/-- Main effect lemma for successful put sequences over an invariant
state: an indexed key keeps its slot and that slot ends holding the last
put for the key (or its old value if no put touches the key); a fresh
key that gets put ends indexed at a slot holding its last put; a fresh
key never put stays unindexed. -/
theorem runPuts_effect {K R : Type} [DecidableEq K] (key : R → K)
    (recs : List R) :
    ∀ (o : OwnerState K) (rg : DictRegion R), OwnerInv key o rg →
      runPutsOk key recs (o, rg) = true → ∀ (k : K),
      (∀ j, lookupA o.index k = some j →
        lookupA (runPuts key recs (o, rg)).1.index k = some j ∧
        (runPuts key recs (o, rg)).2.mem j =
          (lastPut key recs k).getD (rg.mem j)) ∧
      (lookupA o.index k = none → ∀ r, lastPut key recs k = some r →
        ∃ j, lookupA (runPuts key recs (o, rg)).1.index k = some j ∧
          (runPuts key recs (o, rg)).2.mem j = r) ∧
      (lookupA o.index k = none → lastPut key recs k = none →
        lookupA (runPuts key recs (o, rg)).1.index k = none) := by
  induction recs with
  | nil =>
    intro o rg _ _ k
    refine ⟨?_, ?_, ?_⟩
    · intro j hl
      exact ⟨hl, rfl⟩
    · intro _ r hr
      exact absurd hr (by simp [lastPut])
    · intro hl _
      exact hl
  | cons rec0 rest ih =>
    intro o rg hinv hok k
    obtain ⟨hava, hok'⟩ := runPutsOk_cons_true key rec0 rest o rg hok
    have hinv' := put_inv key o rg rec0 hinv
    have ihA := ih (put key o rg rec0).1 (put key o rg rec0).2.1 hinv' hok'
    obtain ⟨hI1, hI2, hI3, hI4⟩ := hinv
    rw [runPuts_cons]
    cases hl0 : lookupA o.index (key rec0) with
    | some i0 =>
      obtain ⟨b1, b2, b3⟩ := hI3 _ _ hl0
      have haddr : o.endIdx - (rg.written - i0 + 1) = i0 := by omega
      have hput := put_overwrite key o rg rec0 i0 hava hl0
      rw [haddr] at hput
      rw [hput] at ihA ⊢
      dsimp only at ihA ⊢
      refine ⟨?_, ?_, ?_⟩
      · intro j hlj
        obtain ⟨c1, c2, c3⟩ := hI3 _ _ hlj
        obtain ⟨p1, p2⟩ := (ihA k).1 j hlj
        refine ⟨p1, ?_⟩
        by_cases hkk : key rec0 = k
        · have hji : j = i0 := by
            rw [hkk] at hl0
            rw [hlj] at hl0
            exact Option.some.injEq _ _ ▸ hl0
          subst hji
          cases hrest : lastPut key rest k with
          | some rr =>
            rw [lastPut_cons_of_some key rec0 rest k rr hrest, Option.getD_some]
            rw [hrest, Option.getD_some] at p2
            exact p2
          | none =>
            rw [lastPut_cons_of_none key rec0 rest k hrest, if_pos hkk,
              Option.getD_some]
            rw [hrest, Option.getD_none, if_pos rfl] at p2
            exact p2
        · have hji : j ≠ i0 := by
            intro he
            apply hkk
            rw [← b3, ← he]
            exact c3
          cases hrest : lastPut key rest k with
          | some rr =>
            rw [lastPut_cons_of_some key rec0 rest k rr hrest, Option.getD_some]
            rw [hrest, Option.getD_some] at p2
            exact p2
          | none =>
            rw [lastPut_cons_of_none key rec0 rest k hrest, if_neg hkk,
              Option.getD_none]
            rw [hrest, Option.getD_none, if_neg hji] at p2
            exact p2
      · intro hln r0 hlp
        have hkk : key rec0 ≠ k := by
          intro he
          rw [he, hln] at hl0
          exact absurd hl0 (by simp)
        have hlp' : lastPut key rest k = some r0 := by
          cases hrest : lastPut key rest k with
          | some rr =>
            rw [lastPut_cons_of_some key rec0 rest k rr hrest] at hlp
            obtain rfl : rr = r0 := by simpa using hlp
            rfl
          | none =>
            rw [lastPut_cons_of_none key rec0 rest k hrest, if_neg hkk] at hlp
            exact absurd hlp (by simp)
        exact (ihA k).2.1 hln r0 hlp'
      · intro hln hnone
        have hrest : lastPut key rest k = none := by
          cases hr : lastPut key rest k with
          | some rr =>
            rw [lastPut_cons_of_some key rec0 rest k rr hr] at hnone
            exact absurd hnone (by simp)
          | none => rfl
        exact (ihA k).2.2 hln hrest
    | none =>
      have hw : (rg.written + 1) % 2 ^ 64 = rg.written + 1 :=
        Nat.mod_eq_of_lt (by omega)
      have hput := put_fresh key o rg rec0 hava hl0
      rw [hw] at hput
      rw [hput] at ihA ⊢
      dsimp only at ihA ⊢
      refine ⟨?_, ?_, ?_⟩
      · intro j hlj
        obtain ⟨c1, c2, c3⟩ := hI3 _ _ hlj
        have hkk : key rec0 ≠ k := by
          intro he
          rw [he, hlj] at hl0
          exact absurd hl0 (by simp)
        have hlj' : lookupA ((key rec0, rg.written + 1) :: o.index) k = some j := by
          rw [lookupA_cons, if_neg fun he => hkk he.symm]
          exact hlj
        obtain ⟨p1, p2⟩ := (ihA k).1 j hlj'
        refine ⟨p1, ?_⟩
        have hne : j ≠ o.endIdx := by omega
        cases hrest : lastPut key rest k with
        | some rr =>
          rw [lastPut_cons_of_some key rec0 rest k rr hrest, Option.getD_some]
          rw [hrest, Option.getD_some] at p2
          exact p2
        | none =>
          rw [lastPut_cons_of_none key rec0 rest k hrest, if_neg hkk,
            Option.getD_none]
          rw [hrest, Option.getD_none, if_neg hne] at p2
          exact p2
      · intro hln r0 hlp
        by_cases hkk : key rec0 = k
        · have hlk : lookupA ((key rec0, rg.written + 1) :: o.index) k =
              some (rg.written + 1) := by
            rw [lookupA_cons, if_pos hkk.symm]
          obtain ⟨p1, p2⟩ := (ihA k).1 (rg.written + 1) hlk
          refine ⟨rg.written + 1, p1, ?_⟩
          have hee : rg.written + 1 = o.endIdx := hI1.symm
          cases hrest : lastPut key rest k with
          | some rr =>
            rw [lastPut_cons_of_some key rec0 rest k rr hrest] at hlp
            obtain rfl : rr = r0 := by simpa using hlp
            rw [hrest, Option.getD_some] at p2
            exact p2
          | none =>
            rw [lastPut_cons_of_none key rec0 rest k hrest, if_pos hkk] at hlp
            obtain rfl : rec0 = r0 := by simpa using hlp
            rw [hrest, Option.getD_none, if_pos hee] at p2
            exact p2
        · have hln' : lookupA ((key rec0, rg.written + 1) :: o.index) k = none := by
            rw [lookupA_cons, if_neg fun he => hkk he.symm]
            exact hln
          have hlp' : lastPut key rest k = some r0 := by
            cases hrest : lastPut key rest k with
            | some rr =>
              rw [lastPut_cons_of_some key rec0 rest k rr hrest] at hlp
              obtain rfl : rr = r0 := by simpa using hlp
              rfl
            | none =>
              rw [lastPut_cons_of_none key rec0 rest k hrest, if_neg hkk] at hlp
              exact absurd hlp (by simp)
          exact (ihA k).2.1 hln' r0 hlp'
      · intro hln hnone
        have hkk : key rec0 ≠ k := by
          intro he
          cases hr : lastPut key rest k with
          | some rr =>
            rw [lastPut_cons_of_some key rec0 rest k rr hr] at hnone
            exact absurd hnone (by simp)
          | none =>
            rw [lastPut_cons_of_none key rec0 rest k hr, if_pos he] at hnone
            exact absurd hnone (by simp)
        have hln' : lookupA ((key rec0, rg.written + 1) :: o.index) k = none := by
          rw [lookupA_cons, if_neg fun he => hkk he.symm]
          exact hln
        have hrest : lastPut key rest k = none := by
          cases hr : lastPut key rest k with
          | some rr =>
            rw [lastPut_cons_of_some key rec0 rest k rr hr] at hnone
            exact absurd hnone (by simp)
          | none => rfl
        exact (ihA k).2.2 hln' hrest

/-- The client indexing loop preserves the client invariant and, given
exactly enough fuel, catches the cursor up to the written count.
Requires the written slots to carry pairwise distinct keys (which the
owner guarantees). -/
theorem catchUp_inv {K R : Type} [DecidableEq K] (key : R → K)
    (rg : DictRegion R) (count : Nat)
    (hdist : ∀ j1 j2, 1 ≤ j1 → j1 ≤ count → 1 ≤ j2 → j2 ≤ count →
      key (rg.mem j1) = key (rg.mem j2) → j1 = j2) :
    ∀ (fuel : Nat) (c : ClientState K), ClientInv key rg count c →
      c.nextRead + fuel = count →
      ClientInv key rg count (catchUp key rg count fuel c) ∧
      (catchUp key rg count fuel c).nextRead = count := by
  intro fuel
  induction fuel with
  | zero =>
    intro c hc hf
    refine ⟨hc, ?_⟩
    show c.nextRead = count
    omega
  | succ fuel ih =>
    intro c hc hf
    obtain ⟨g1, g2, g3, g4⟩ := hc
    have hlt : c.nextRead < count := by omega
    have hstep : catchUp key rg count (fuel + 1) c =
        catchUp key rg count fuel
          { endIdx := c.endIdx + 1, nextRead := c.nextRead + 1,
            index := (key (rg.mem c.endIdx), c.nextRead) :: c.index } := by
      simp only [catchUp]
      rw [if_pos hlt]
    rw [hstep]
    apply ih
    · unfold ClientInv
      dsimp only
      refine ⟨by omega, by omega, ?_, ?_⟩
      · intro k i hl
        rw [lookupA_cons] at hl
        by_cases hk : k = key (rg.mem c.endIdx)
        · rw [if_pos hk] at hl
          have hi : c.nextRead = i := by simpa using hl
          refine ⟨by omega, ?_⟩
          rw [show i + 1 = c.endIdx from by omega, hk]
        · rw [if_neg hk] at hl
          obtain ⟨d1, d2⟩ := g3 _ _ hl
          exact ⟨by omega, d2⟩
      · intro j hj1 hj2
        by_cases hj : j = c.nextRead + 1
        · have hje : j = c.endIdx := by omega
          subst hje
          rw [lookupA_cons, if_pos rfl]
          exact congrArg some (by omega)
        · have hjn : j ≤ c.nextRead := by omega
          have hkne : key (rg.mem j) ≠ key (rg.mem c.endIdx) := by
            intro he
            have hje := hdist j c.endIdx hj1 (by omega) (by omega) (by omega) he
            omega
          rw [lookupA_cons, if_neg hkne]
          exact g4 j hj1 hjn
    · show c.nextRead + 1 + fuel = count
      omega

/-- `clientNew` satisfies the client invariant over any region. -/
theorem clientNew_inv {K R : Type} [DecidableEq K] (key : R → K)
    (rg : DictRegion R) (count : Nat) :
    ClientInv key rg count (clientNew (K := K)) := by
  refine ⟨rfl, Nat.zero_le _, ?_, ?_⟩
  · intro k' i hl
    have hl' : lookupA [] k' = some i := hl
    simp [lookupA] at hl'
  · intro j' a b
    have b' : j' ≤ 0 := b
    omega

/-- In `get` on a fresh client, the private index is empty, so the
indexing loop runs with fuel equal to the full written count. -/
theorem get_fresh_scan {K R : Type} [DecidableEq K] (key : R → K)
    (rg : DictRegion R) (k : K) :
    (if (lookupA (clientNew (K := K)).index k).isSome then clientNew (K := K)
     else catchUp key rg rg.written
       (rg.written - (clientNew (K := K)).nextRead) (clientNew (K := K)))
      = catchUp key rg rg.written rg.written (clientNew (K := K)) := by
  simp [clientNew, lookupA]

/-- A fresh client's `get` on a key held by written slot `j` returns the
record currently at slot `j`. -/
theorem get_found {K R : Type} [DecidableEq K] (key : R → K)
    (rg : DictRegion R) (k : K) (j : Nat)
    (hdist : ∀ j1 j2, 1 ≤ j1 → j1 ≤ rg.written → 1 ≤ j2 → j2 ≤ rg.written →
      key (rg.mem j1) = key (rg.mem j2) → j1 = j2)
    (hj1 : 1 ≤ j) (hj2 : j ≤ rg.written) (hkey : key (rg.mem j) = k) :
    (get key (clientNew (K := K)) rg k).2 = Except.ok (rg.mem j) := by
  obtain ⟨⟨e1, e2, e3, e4⟩, hcnt⟩ :=
    catchUp_inv key rg rg.written hdist rg.written (clientNew (K := K))
      (clientNew_inv key rg rg.written) (Nat.zero_add _)
  have hlook : lookupA
      (catchUp key rg rg.written rg.written (clientNew (K := K))).index k =
      some (j - 1) := by
    have hj2' : j ≤ (catchUp key rg rg.written rg.written
        (clientNew (K := K))).nextRead := by
      rw [hcnt]; exact hj2
    have he4 := e4 j hj1 hj2'
    rw [hkey] at he4
    exact he4
  have hend : (catchUp key rg rg.written rg.written
      (clientNew (K := K))).endIdx = rg.written + 1 := by
    rw [e1, hcnt]
  unfold get
  dsimp only
  rw [get_fresh_scan key rg k, hlook]
  dsimp only
  rw [hend]
  have haddr : rg.written + 1 - (rg.written - (j - 1)) = j := by omega
  rw [haddr]

/-- A fresh client's `get` on a key held by no written slot fails with
`ENOKEY`. -/
theorem get_missing {K R : Type} [DecidableEq K] (key : R → K)
    (rg : DictRegion R) (k : K)
    (hdist : ∀ j1 j2, 1 ≤ j1 → j1 ≤ rg.written → 1 ≤ j2 → j2 ≤ rg.written →
      key (rg.mem j1) = key (rg.mem j2) → j1 = j2)
    (hno : ∀ j, 1 ≤ j → j ≤ rg.written → key (rg.mem j) ≠ k) :
    (get key (clientNew (K := K)) rg k).2 =
      Except.error DictErrorCode.ENOKEY := by
  obtain ⟨⟨e1, e2, e3, e4⟩, hcnt⟩ :=
    catchUp_inv key rg rg.written hdist rg.written (clientNew (K := K))
      (clientNew_inv key rg rg.written) (Nat.zero_add _)
  have hlook : lookupA
      (catchUp key rg rg.written rg.written (clientNew (K := K))).index k =
      none := by
    cases hl : lookupA
        (catchUp key rg rg.written rg.written (clientNew (K := K))).index k with
    | none => rfl
    | some i =>
      obtain ⟨d1, d2⟩ := e3 _ _ hl
      rw [hcnt] at d1
      exact absurd d2 (hno (i + 1) (by omega) d1)
  unfold get
  dsimp only
  rw [get_fresh_scan key rg k, hlook]

/-- Running a concatenation of put batches runs them in sequence. -/
theorem runPuts_append {K R : Type} [DecidableEq K] (key : R → K)
    (xs : List R) :
    ∀ (ys : List R) (s : OwnerState K × DictRegion R),
      runPuts key (xs ++ ys) s = runPuts key ys (runPuts key xs s) := by
  induction xs with
  | nil => intro ys s; rfl
  | cons x rest ih =>
    intro ys s
    exact ih ys ((put key s.1 s.2 x).1, (put key s.1 s.2 x).2.1)

/-- Splitting a successful put batch at a concatenation point. -/
theorem runPutsOk_append {K R : Type} [DecidableEq K] (key : R → K)
    (xs : List R) :
    ∀ (ys : List R) (s : OwnerState K × DictRegion R),
      runPutsOk key (xs ++ ys) s = true →
      runPutsOk key xs s = true ∧
      runPutsOk key ys (runPuts key xs s) = true := by
  induction xs with
  | nil => intro ys s h; exact ⟨rfl, h⟩
  | cons x rest ih =>
    intro ys s h
    have h' : (isOkResult (put key s.1 s.2 x).2.2 &&
        runPutsOk key (rest ++ ys)
          ((put key s.1 s.2 x).1, (put key s.1 s.2 x).2.1)) = true := h
    simp only [Bool.and_eq_true] at h'
    obtain ⟨h1, h2⟩ := ih ys ((put key s.1 s.2 x).1, (put key s.1 s.2 x).2.1) h'.2
    refine ⟨?_, h2⟩
    show (isOkResult (put key s.1 s.2 x).2.2 &&
        runPutsOk key rest
          ((put key s.1 s.2 x).1, (put key s.1 s.2 x).2.1)) = true
    rw [h'.1, h1]
    rfl

/-- C7: after a successful put sequence in which key `k` is written
(`r1`) and later overwritten (`r2`, with no later put for `k`), a client
created over the resulting region obtains `r2` from `get k`; and for any
key never put, `get` fails with `ENOKEY` once the client's index has
caught up to the shared written count. -/
theorem c7_dictionary_last_write_wins {K R : Type} [DecidableEq K]
    (key : R → K) (size sizeR : Nat) (rg0 : DictRegion R)
    (s1 s2 s3 : List R) (r1 r2 : R) (k : K)
    (hsize : (size - 1) / sizeR < 2 ^ 64)
    (hk1 : key r1 = k) (hk2 : key r2 = k) (hs3 : ∀ r ∈ s3, key r ≠ k)
    (hok : runPutsOk key (s1 ++ r1 :: s2 ++ r2 :: s3)
      (ownerNew (K := K) size sizeR rg0) = true) :
    (get key (clientNew (K := K))
        (runPuts key (s1 ++ r1 :: s2 ++ r2 :: s3)
          (ownerNew (K := K) size sizeR rg0)).2 k).2 = Except.ok r2 ∧
    (∀ k', (∀ r ∈ s1 ++ r1 :: s2 ++ r2 :: s3, key r ≠ k') →
      (get key (clientNew (K := K))
          (runPuts key (s1 ++ r1 :: s2 ++ r2 :: s3)
            (ownerNew (K := K) size sizeR rg0)).2 k').2 =
        Except.error DictErrorCode.ENOKEY) := by
  have hassoc : s1 ++ r1 :: s2 ++ r2 :: s3 = (s1 ++ r1 :: s2) ++ r2 :: s3 := by
    simp
  have hlast : lastPut key (s1 ++ r1 :: s2 ++ r2 :: s3) k = some r2 := by
    rw [hassoc]
    exact lastPut_last_segment key (s1 ++ r1 :: s2) r2 s3 k hk2 hs3
  have hinv0 := ownerNew_inv (K := K) key size sizeR rg0 hsize
  have hinvF : OwnerInv key
      (runPuts key (s1 ++ r1 :: s2 ++ r2 :: s3)
        (ownerNew (K := K) size sizeR rg0)).1
      (runPuts key (s1 ++ r1 :: s2 ++ r2 :: s3)
        (ownerNew (K := K) size sizeR rg0)).2 :=
    runPuts_inv key (s1 ++ r1 :: s2 ++ r2 :: s3)
      (ownerNew (K := K) size sizeR rg0).1
      (ownerNew (K := K) size sizeR rg0).2 hinv0
  have hdist := ownerInv_distinct key _ _ hinvF
  constructor
  · have heff := runPuts_effect key (s1 ++ r1 :: s2 ++ r2 :: s3)
      (ownerNew (K := K) size sizeR rg0).1
      (ownerNew (K := K) size sizeR rg0).2 hinv0 hok k
    have hl0 : lookupA (ownerNew (K := K) size sizeR rg0).1.index k = none := rfl
    obtain ⟨j, hjl, hjm⟩ := heff.2.1 hl0 r2 hlast
    obtain ⟨u1, u2, u3⟩ := hinvF.2.2.1 _ _ hjl
    have hfound := get_found key
      (runPuts key (s1 ++ r1 :: s2 ++ r2 :: s3)
        (ownerNew (K := K) size sizeR rg0)).2 k j hdist u1 u2 u3
    rw [hjm] at hfound
    exact hfound
  · intro k' hk'
    have hlast' : lastPut key (s1 ++ r1 :: s2 ++ r2 :: s3) k' = none :=
      lastPut_eq_none key _ k' hk'
    have hl0 : lookupA (ownerNew (K := K) size sizeR rg0).1.index k' = none := rfl
    have hnoneF := (runPuts_effect key (s1 ++ r1 :: s2 ++ r2 :: s3)
      (ownerNew (K := K) size sizeR rg0).1
      (ownerNew (K := K) size sizeR rg0).2 hinv0 hok k').2.2 hl0 hlast'
    have hno : ∀ jj, 1 ≤ jj →
        jj ≤ (runPuts key (s1 ++ r1 :: s2 ++ r2 :: s3)
          (ownerNew (K := K) size sizeR rg0)).2.written →
        key ((runPuts key (s1 ++ r1 :: s2 ++ r2 :: s3)
          (ownerNew (K := K) size sizeR rg0)).2.mem jj) ≠ k' := by
      intro jj a b he
      have hj4 := hinvF.2.2.2 jj a b
      rw [he, hnoneF] at hj4
      exact absurd hj4 (by simp)
    exact get_missing key _ k' hdist hno

/-- Witness for `c7_dictionary_last_write_wins`: the owner puts key `1`
with value `10` and then with value `20`; a fresh client's `get 1`
returns `(1, 20)`. -/
theorem c7_dictionary_last_write_wins_witness :
    (get Prod.fst (clientNew (K := Nat))
        (runPuts Prod.fst ([] ++ ((1 : Nat), (10 : Nat)) :: [] ++ (1, 20) :: [])
          (ownerNew (K := Nat) 1024 16 ⟨0, fun _ => (0, 0)⟩)).2 1).2 =
      Except.ok (1, 20) :=
  (c7_dictionary_last_write_wins Prod.fst 1024 16 ⟨0, fun _ => (0, 0)⟩
    [] [] [] (1, 10) (1, 20) 1 (by decide) rfl rfl (by simp) (by rfl)).1

/-- C8: in a successful put history whose first put for the key of
`record` was the append of `r0`, the key stays indexed at the very slot
that append allocated; an overwriting `put record` (with capacity left)
rewrites exactly that slot in place and returns the owner state — cursor,
capacity and index — and the shared written count unchanged; a `put` of
a fresh key instead appends at the cursor slot, advances the written
count by one and consumes one unit of capacity. -/
theorem c8_put_overwrites_original_slot {K R : Type} [DecidableEq K]
    (key : R → K) (size sizeR : Nat) (rg0 : DictRegion R)
    (a b : List R) (r0 record : R)
    (hsize : (size - 1) / sizeR < 2 ^ 64)
    (hk0 : key r0 = key record)
    (ha : ∀ r ∈ a, key r ≠ key record)
    (hok : runPutsOk key (a ++ r0 :: b)
      (ownerNew (K := K) size sizeR rg0) = true)
    (havail : 0 < (runPuts key (a ++ r0 :: b)
      (ownerNew (K := K) size sizeR rg0)).1.available) :
    lookupA (runPuts key (a ++ r0 :: b)
        (ownerNew (K := K) size sizeR rg0)).1.index (key record) =
      some ((runPuts key a (ownerNew (K := K) size sizeR rg0)).2.written + 1) ∧
    put key (runPuts key (a ++ r0 :: b) (ownerNew (K := K) size sizeR rg0)).1
        (runPuts key (a ++ r0 :: b) (ownerNew (K := K) size sizeR rg0)).2
        record =
      ((runPuts key (a ++ r0 :: b) (ownerNew (K := K) size sizeR rg0)).1,
       { (runPuts key (a ++ r0 :: b) (ownerNew (K := K) size sizeR rg0)).2 with
         mem := fun j =>
           if j = (runPuts key a (ownerNew (K := K) size sizeR rg0)).2.written + 1
           then record
           else (runPuts key (a ++ r0 :: b)
             (ownerNew (K := K) size sizeR rg0)).2.mem j },
       Except.ok ()) ∧
    (∀ record' : R,
      lookupA (runPuts key (a ++ r0 :: b)
        (ownerNew (K := K) size sizeR rg0)).1.index (key record') = none →
      put key (runPuts key (a ++ r0 :: b) (ownerNew (K := K) size sizeR rg0)).1
          (runPuts key (a ++ r0 :: b) (ownerNew (K := K) size sizeR rg0)).2
          record' =
        ({ endIdx := (runPuts key (a ++ r0 :: b)
             (ownerNew (K := K) size sizeR rg0)).1.endIdx + 1,
           available := (runPuts key (a ++ r0 :: b)
             (ownerNew (K := K) size sizeR rg0)).1.available - 1,
           index := (key record',
             (runPuts key (a ++ r0 :: b)
               (ownerNew (K := K) size sizeR rg0)).2.written + 1) ::
             (runPuts key (a ++ r0 :: b)
               (ownerNew (K := K) size sizeR rg0)).1.index },
         { written := (runPuts key (a ++ r0 :: b)
             (ownerNew (K := K) size sizeR rg0)).2.written + 1,
           mem := fun j =>
             if j = (runPuts key (a ++ r0 :: b)
               (ownerNew (K := K) size sizeR rg0)).1.endIdx
             then record'
             else (runPuts key (a ++ r0 :: b)
               (ownerNew (K := K) size sizeR rg0)).2.mem j },
         Except.ok ())) := by
  have hinv0 := ownerNew_inv (K := K) key size sizeR rg0 hsize
  obtain ⟨hokA, hokTail⟩ := runPutsOk_append key a (r0 :: b)
    (ownerNew (K := K) size sizeR rg0) hok
  have hinvA : OwnerInv key
      (runPuts key a (ownerNew (K := K) size sizeR rg0)).1
      (runPuts key a (ownerNew (K := K) size sizeR rg0)).2 :=
    runPuts_inv key a (ownerNew (K := K) size sizeR rg0).1
      (ownerNew (K := K) size sizeR rg0).2 hinv0
  have hl0 : lookupA (ownerNew (K := K) size sizeR rg0).1.index
      (key record) = none := rfl
  have hnoA : lookupA
      (runPuts key a (ownerNew (K := K) size sizeR rg0)).1.index
      (key record) = none :=
    (runPuts_effect key a (ownerNew (K := K) size sizeR rg0).1
      (ownerNew (K := K) size sizeR rg0).2 hinv0 hokA (key record)).2.2 hl0
      (lastPut_eq_none key a (key record) ha)
  obtain ⟨havaA, hokB⟩ := runPutsOk_cons_true key r0 b
    (runPuts key a (ownerNew (K := K) size sizeR rg0)).1
    (runPuts key a (ownerNew (K := K) size sizeR rg0)).2 hokTail
  have hl0r : lookupA
      (runPuts key a (ownerNew (K := K) size sizeR rg0)).1.index
      (key r0) = none := by
    rw [hk0]; exact hnoA
  have hwA : ((runPuts key a (ownerNew (K := K) size sizeR rg0)).2.written + 1)
      % 2 ^ 64 =
      (runPuts key a (ownerNew (K := K) size sizeR rg0)).2.written + 1 :=
    Nat.mod_eq_of_lt (by have := hinvA.2.1; omega)
  have hputA := put_fresh key
    (runPuts key a (ownerNew (K := K) size sizeR rg0)).1
    (runPuts key a (ownerNew (K := K) size sizeR rg0)).2 r0 havaA hl0r
  rw [hwA] at hputA
  have hinvA' := put_inv key
    (runPuts key a (ownerNew (K := K) size sizeR rg0)).1
    (runPuts key a (ownerNew (K := K) size sizeR rg0)).2 r0 hinvA
  have hlB : lookupA
      (put key (runPuts key a (ownerNew (K := K) size sizeR rg0)).1
        (runPuts key a (ownerNew (K := K) size sizeR rg0)).2 r0).1.index
      (key record) =
      some ((runPuts key a (ownerNew (K := K) size sizeR rg0)).2.written + 1) := by
    rw [hputA]
    rw [lookupA_cons, if_pos hk0.symm]
  have heffB := runPuts_effect key b
    (put key (runPuts key a (ownerNew (K := K) size sizeR rg0)).1
      (runPuts key a (ownerNew (K := K) size sizeR rg0)).2 r0).1
    (put key (runPuts key a (ownerNew (K := K) size sizeR rg0)).1
      (runPuts key a (ownerNew (K := K) size sizeR rg0)).2 r0).2.1
    hinvA' hokB (key record)
  obtain ⟨hfinL, _⟩ := heffB.1
    ((runPuts key a (ownerNew (K := K) size sizeR rg0)).2.written + 1) hlB
  have hsplit : runPuts key (a ++ r0 :: b) (ownerNew (K := K) size sizeR rg0) =
      runPuts key b
        ((put key (runPuts key a (ownerNew (K := K) size sizeR rg0)).1
          (runPuts key a (ownerNew (K := K) size sizeR rg0)).2 r0).1,
         (put key (runPuts key a (ownerNew (K := K) size sizeR rg0)).1
          (runPuts key a (ownerNew (K := K) size sizeR rg0)).2 r0).2.1) := by
    rw [runPuts_append key a (r0 :: b) (ownerNew (K := K) size sizeR rg0)]
    rfl
  have hFlook : lookupA (runPuts key (a ++ r0 :: b)
      (ownerNew (K := K) size sizeR rg0)).1.index (key record) =
      some ((runPuts key a (ownerNew (K := K) size sizeR rg0)).2.written + 1) := by
    rw [hsplit]
    exact hfinL
  have hinvF : OwnerInv key
      (runPuts key (a ++ r0 :: b) (ownerNew (K := K) size sizeR rg0)).1
      (runPuts key (a ++ r0 :: b) (ownerNew (K := K) size sizeR rg0)).2 :=
    runPuts_inv key (a ++ r0 :: b) (ownerNew (K := K) size sizeR rg0).1
      (ownerNew (K := K) size sizeR rg0).2 hinv0
  refine ⟨hFlook, ?_, ?_⟩
  · obtain ⟨w1, w2, w3⟩ := hinvF.2.2.1 _ _ hFlook
    have haddr : (runPuts key (a ++ r0 :: b)
        (ownerNew (K := K) size sizeR rg0)).1.endIdx -
        ((runPuts key (a ++ r0 :: b)
          (ownerNew (K := K) size sizeR rg0)).2.written -
          ((runPuts key a (ownerNew (K := K) size sizeR rg0)).2.written + 1) + 1) =
        (runPuts key a (ownerNew (K := K) size sizeR rg0)).2.written + 1 := by
      have := hinvF.1
      omega
    have hov := put_overwrite key
      (runPuts key (a ++ r0 :: b) (ownerNew (K := K) size sizeR rg0)).1
      (runPuts key (a ++ r0 :: b) (ownerNew (K := K) size sizeR rg0)).2
      record
      ((runPuts key a (ownerNew (K := K) size sizeR rg0)).2.written + 1)
      havail hFlook
    rw [haddr] at hov
    exact hov
  · intro record' hnone
    have hwF : ((runPuts key (a ++ r0 :: b)
        (ownerNew (K := K) size sizeR rg0)).2.written + 1) % 2 ^ 64 =
        (runPuts key (a ++ r0 :: b)
          (ownerNew (K := K) size sizeR rg0)).2.written + 1 :=
      Nat.mod_eq_of_lt (by have := hinvF.2.1; omega)
    have hfr := put_fresh key
      (runPuts key (a ++ r0 :: b) (ownerNew (K := K) size sizeR rg0)).1
      (runPuts key (a ++ r0 :: b) (ownerNew (K := K) size sizeR rg0)).2
      record' havail hnone
    rw [hwF] at hfr
    exact hfr

/-- Witness for `c8_put_overwrites_original_slot`: after the single
append of `(1, 10)`, key `1` is indexed at slot 1, the slot that append
allocated. -/
theorem c8_put_overwrites_original_slot_witness :
    lookupA (runPuts Prod.fst ([] ++ ((1 : Nat), (10 : Nat)) :: [])
        (ownerNew (K := Nat) 1024 16 ⟨0, fun _ => (0, 0)⟩)).1.index
      ((1 : Nat), (20 : Nat)).1 =
      some ((runPuts Prod.fst []
        (ownerNew (K := Nat) 1024 16 ⟨0, fun _ => (0, 0)⟩)).2.written + 1) :=
  (c8_put_overwrites_original_slot Prod.fst 1024 16 ⟨0, fun _ => (0, 0)⟩
    [] [] (1, 10) (1, 20) (by decide) rfl (by simp) rfl (by decide)).1

end Rshm
